import Mathlib

/-!
# Verification of the pyccoon language-segmentation engine

Shallow embedding of `src/pyccoon/languages/__init__.py`: the `Section`
data model, the base parsing pipeline (`set_sections_levels`,
`strip_docs_indentation`, `merge_up`, `merge_down`, `absorb`), the
capability passes composed by the `Python` language definition
(`parse_multiline`, `parse_inline`, `split_by_scopes`, `python_absorb`),
the `PlainText`/`Markdown` override of `parse`, the filename
transformation, the extension registry and `get_language` dispatch.

The helper module `pyccoon/languages/utils.py` (`Section`,
`ParsingStrategy`, `iterate_sections`, `split_section_by_regex`,
`split_code_by_pos`) is not part of the given sources; those parts are
modelled from the specification (sections 3, 4.1 and 9 of the spec),
as noted on each such definition.  Regular expressions appearing in the
source are embedded as specialised executable character-list functions,
each faithful to the semantics of the concrete pattern it replaces.
-/

namespace Pyccoon

abbrev Chars := List Char

/-- Python `[ \t]` character class (used by `^([ \t]*)` patterns). -/
def isBlankCh (c : Char) : Bool := c = ' ' || c = '\t'

/-- Python `\s` character class: space, tab, newline, carriage return,
vertical tab, form feed. -/
def isPyWs (c : Char) : Bool :=
  c = ' ' || c = '\t' || c = '\n' || c = '\r' || c = '\x0b' || c = '\x0c'

/-- Python `\w` character class restricted to ASCII as used by the
source patterns. -/
def isWordCh (c : Char) : Bool := c.isAlpha || c.isDigit || c = '_'

/-- Python `str.lstrip('\n')`. -/
def lstripNl (cs : Chars) : Chars := cs.dropWhile (· = '\n')

/-- Python `str.rstrip('\n')`. -/
def rstripNl (cs : Chars) : Chars := (cs.reverse.dropWhile (· = '\n')).reverse

/-- Python `str.strip('\n')`. -/
def stripNlBoth (cs : Chars) : Chars := rstripNl (lstripNl cs)

/-- Python `str.strip()` (strip whitespace on both ends). -/
def stripWs (cs : Chars) : Chars :=
  ((cs.dropWhile isPyWs).reverse.dropWhile isPyWs).reverse

/-- One line of text: everything up to and including the first newline. -/
def takeLine : Chars → Chars
  | [] => []
  | c :: cs => if c = '\n' then ['\n'] else c :: takeLine cs

/-- Split a text into lines, each line keeping its terminating newline
(the final line may lack one); every line is paired with the text that
follows it, which is what a regex lookahead scanning past the end of the
line sees. -/
def splitNlKeepA : Chars → List (Chars × Chars)
  | [] => []
  | c :: cs =>
    if c = '\n' then (['\n'], cs) :: splitNlKeepA cs
    else
      match splitNlKeepA cs with
      | [] => [([c], [])]
      | (l, a) :: rest => (c :: l, a) :: rest

/-- Split a text into newline-terminated lines. -/
def splitNlKeep (cs : Chars) : List Chars := (splitNlKeepA cs).map Prod.fst

/-- Python `str.split("\n")` (separators removed, never empty). -/
def splitOnNl : Chars → List Chars
  | [] => [[]]
  | c :: cs =>
    if c = '\n' then [] :: splitOnNl cs
    else
      match splitOnNl cs with
      | [] => [[c]]
      | l :: rest => (c :: l) :: rest

/-- The `^` positions of a multiline regex: offset 0 and every offset
directly after a newline. -/
def lineStartsAux : Nat → Chars → List Nat
  | _, [] => []
  | i, c :: rest =>
    if c = '\n' then (i + 1) :: lineStartsAux (i + 1) rest
    else lineStartsAux (i + 1) rest

def lineStarts (cs : Chars) : List Nat := 0 :: lineStartsAux 0 cs

/-!
## The Section data model

Modelled from the spec: `Section` lives in the absent
`pyccoon/languages/utils.py`; spec section 3 lists its attributes
(`documentation_text`, `code_text`, indent level, scope label,
processing flag).  The dictionary keys used by the source
(`docs_text`, `code_text`, `level`, `scope`, `meta`) name the fields.
String truthiness gives `has_docs`/`has_code`.
-/

structure Section where
  docs_text : String := ""
  code_text : String := ""
  level : Nat := 0
  scope : String := ""
  meta : String := ""
deriving Repr, DecidableEq

def Section.has_docs (s : Section) : Bool := s.docs_text != ""

def Section.has_code (s : Section) : Bool := s.code_text != ""

/-- Concatenation of the code text of a section sequence, in order. -/
def concatCode (secs : List Section) : String :=
  secs.foldr (fun s acc => s.code_text ++ acc) ""

/-!
## Pass drivers

Modelled from the spec: `iterate_sections` lives in the absent
`utils.py`.  Spec sections 5 and 9 fix the contract: "each pass is a
pure function from an ordered section sequence to an ordered section
sequence" and "model each pass as `old_sequence -> new_sequence`".
Merging passes (which inspect a section and its predecessor and may
delete the current section) become a left-to-right fold in which a
merged section is the predecessor of the next comparison; splitting
passes (which splice a replacement list at the current index) process
the spliced tail next, exactly as index-based iteration over the
mutated list does.
-/

/-- Driver for the `@iterate_sections()` passes that start at index 1:
`rule prev cur = some merged` replaces the pair by `merged` (the
current section is deleted), `none` keeps both. -/
def mergePass (rule : Section → Section → Option Section) :
    List Section → List Section
  | [] => []
  | s :: rest => mergeGo rule s rest
where
  mergeGo (rule : Section → Section → Option Section) :
      Section → List Section → List Section
  | prev, [] => [prev]
  | prev, cur :: rest =>
    match rule prev cur with
    | some m => mergeGo rule m rest
    | none => prev :: mergeGo rule cur rest

/-- Driver for `@iterate_sections(start=0)` passes whose body may
splice several sections at the current index: the first produced
section is final, the rest are processed again (as the original
in-place iteration does when it advances by one).  `fuel` bounds the
number of steps; every use supplies enough fuel. -/
def splitDriver (body : Section → List Section) : Nat → List Section → List Section
  | _, [] => []
  | 0, secs => secs
  | fuel + 1, s :: rest =>
    match body s with
    | [] => splitDriver body fuel rest
    | a :: tail => a :: splitDriver body fuel (tail ++ rest)

/-- Fuel that over-approximates the number of driver steps for a
section list. -/
def fuelFor (secs : List Section) : Nat :=
  secs.foldl (fun n s => n + 2 * s.code_text.data.length + 2) 4

def splitPass (body : Section → List Section) (secs : List Section) : List Section :=
  splitDriver body (fuelFor secs) secs

/-!
## Base pipeline passes (`Language` in the source)
-/

/-- Pass `Language.set_sections_levels`: a section with code gets the length
of the `^([ \t]*)` match of its code as level; a section without code at
index `i > 0` inherits the (already recomputed) level of its
predecessor; the very first section keeps its level when it has no
code. -/
def setLevelsGo : Option Nat → List Section → List Section
  | _, [] => []
  | prev, s :: rest =>
    let lvl :=
      if s.code_text ≠ "" then (s.code_text.data.takeWhile isBlankCh).length
      else match prev with
        | some p => p
        | none => s.level
    { s with level := lvl } :: setLevelsGo (some lvl) rest

def set_sections_levels (secs : List Section) : List Section := setLevelsGo none secs

/-- One line of `re.compile("^" + indent, re.M).sub("", docs)`: remove
the literal indent prefix from a line when present. -/
def stripIndentLine (ind : Chars) (l : Chars) : Chars :=
  if ind.isPrefixOf l then l.drop ind.length else l

/-- Pass `Language.strip_docs_indentation`: the `^([ \t]*)` match of the
documentation text is removed from the start of every line on which it
occurs. -/
def stripDocsSec (s : Section) : Section :=
  let ind := s.docs_text.data.takeWhile isBlankCh
  { s with docs_text :=
      String.mk (((splitNlKeep s.docs_text.data).map (stripIndentLine ind)).flatten) }

def strip_docs_indentation (secs : List Section) : List Section := secs.map stripDocsSec

/-- The last line of the previous section's code, as computed by
`merge_up`: `code_text.strip().split("\n")[-1].strip()`. -/
def prevCodeLine (code : String) : Chars :=
  stripWs ((splitOnNl (stripWs code.data)).getLastD [])

/-- Pass `Language.merge_up`, parameterised by the language's scope-keyword
matcher (`any(re.match(x, prev_line) for x in scope_keywords)`). -/
def mergeUpRule (kwMatch : Chars → Bool) (prev cur : Section) : Option Section :=
  if !cur.has_code && !prev.has_docs && prev.has_code
      && kwMatch (prevCodeLine prev.code_text) then
    some { prev with docs_text := cur.docs_text }
  else none

/-- Pass `Language.merge_down`: a documentation-only section followed by a
code-only section receives that code; its scope becomes
`cur.scope or prev.scope`; the current section is deleted. -/
def mergeDownRule (prev cur : Section) : Option Section :=
  if !prev.has_code && prev.has_docs && !cur.has_docs && cur.has_code then
    some { prev with code_text := cur.code_text,
                     scope := if cur.scope != "" then cur.scope else prev.scope }
  else none

/-- Pass `Language.absorb`: a documentation-less section lying strictly
deeper than its predecessor is concatenated into it with
`prev.rstrip('\n') + '\n\n' + cur.lstrip('\n')`. -/
def absorbRule (prev cur : Section) : Option Section :=
  if !cur.has_docs && decide (prev.level < cur.level) then
    let joined : Chars :=
      rstripNl prev.code_text.data ++ '\n' :: '\n' :: lstripNl cur.code_text.data
    some { prev with code_text := String.mk joined }
  else none

/-- Pass `Python.python_absorb`: when the previous section's scope label
contains the decorator marker `'@'`, its documentation and code are
prepended to the current section and the pair is replaced by the
current section. -/
def pythonAbsorbRule (prev cur : Section) : Option Section :=
  if prev.scope.data.contains '@' then
    some { cur with docs_text := prev.docs_text ++ cur.docs_text,
                    code_text := prev.code_text ++ cur.code_text }
  else none

/-!
## The parsing strategy

Modelled from the spec: `ParsingStrategy` lives in the absent
`utils.py`; spec section 9 describes it as "an ordered list of
(name, pass-function) pairs" with builder operations
`insert_before(name, pass)` etc.  Pass names are the Python method
names.
-/

abbrev Pass := List Section → List Section

/-- Builder operation `ParsingStrategy.insert_before(name, pass)`. -/
def insertBefore (nm : String) (p : String × Pass) :
    List (String × Pass) → List (String × Pass)
  | [] => []
  | x :: xs => if x.1 = nm then p :: x :: xs else x :: insertBefore nm p xs

/-- The base strategy built by `Language.strategy`, parameterised by
the scope-keyword matcher used by `merge_up`. -/
def baseStrategyFor (kwMatch : Chars → Bool) : List (String × Pass) :=
  [("set_sections_levels", set_sections_levels),
   ("strip_docs_indentation", strip_docs_indentation),
   ("set_sections_levels", set_sections_levels),
   ("merge_up", mergePass (mergeUpRule kwMatch)),
   ("set_sections_levels", set_sections_levels),
   ("merge_down", mergePass mergeDownRule),
   ("set_sections_levels", set_sections_levels),
   ("absorb", mergePass absorbRule)]

/-- The base `Language` has `scope_keywords = []`, so `any([])` is
false and `merge_up` never fires. -/
def baseStrategy : List (String × Pass) := baseStrategyFor (fun _ => false)

/-- Method `Language.parse`: one initial section holding the whole code, the
strategy's passes applied in order, empty sections stripped at the
end. -/
def parseWith (strategy : List (String × Pass)) (code : String) : List Section :=
  (strategy.foldl (fun secs p => p.2 secs) [{ code_text := code }]).filter
    (fun s => s.has_code || s.has_docs)

/-- Method `PlainText.parse` (inherited unchanged by `Markdown`): the whole
input becomes the documentation of a single section, no strategy pass
and no final filtering is applied. -/
def plainTextParse (code : String) : List Section := [{ docs_text := code }]

def markdownParse (code : String) : List Section := plainTextParse code

/-!
## InlineCommentLanguage for Python

`inline_re` is
`((?:^[ \t]*#(?!((\!.+)|((\s)*-\*-(\s)*coding:.+(\s*)-\*-))).*\n)+)`:
maximal runs of lines that start with optional blanks and `#`, end in a
newline, and whose text after `#` does not begin one of the two
`ignored_inline_patterns`.  The negative lookahead reads the remaining
subject string, which can extend past the end of the line.
-/

/-- First ignored pattern `(\!.+)`: a `!` followed by at least one
non-newline character. -/
def shebangPat : Chars → Bool
  | '!' :: c :: _ => c ≠ '\n'
  | _ => false

/-- The `.+(\s*)-\*-` tail of the coding pattern: after consuming at
least one non-newline character, whitespace followed by `-*-` closes
the match (with backtracking over the greedy `.+`). -/
def codingClose : Chars → Bool
  | [] => false
  | c :: rest =>
    if c = '\n' then false
    else if ['-', '*', '-'].isPrefixOf (rest.dropWhile isPyWs) then true
    else codingClose rest

/-- Second ignored pattern `((\s)*-\*-(\s)*coding:.+(\s*)-\*-)`. -/
def codingPat (cs : Chars) : Bool :=
  let t1 := cs.dropWhile isPyWs
  if ['-', '*', '-'].isPrefixOf t1 then
    let t2 := (t1.drop 3).dropWhile isPyWs
    if "coding:".data.isPrefixOf t2 then codingClose (t2.drop 7)
    else false
  else false

def pyIgnoredAt (cs : Chars) : Bool := shebangPat cs || codingPat cs

/-- Does a line (paired with the text that follows it) match one
repetition of Python's `inline_re`, i.e. `^[ \t]*#(?!ignored).*\n`? -/
def pyDocLine (l after : Chars) : Bool :=
  match l.dropWhile isBlankCh with
  | '#' :: rest => (l.getLast? = some '\n') && !(pyIgnoredAt (rest ++ after))
  | _ => false

/-- Alternating code/documentation chunks of a code text. -/
inductive Chunk where
  | code (t : Chars)
  | doc (t : Chars)
deriving Repr, DecidableEq

/-- Group the lines of a code text into maximal runs of `inline_re`
lines (documentation chunks) and the remaining text (code chunks). -/
def chunksGo (docLine : Chars → Chars → Bool) : List (Chars × Chars) → List Chunk
  | [] => []
  | (l, a) :: rest =>
    if docLine l a then
      match chunksGo docLine rest with
      | Chunk.doc t :: cs => Chunk.doc (l ++ t) :: cs
      | cs => Chunk.doc l :: cs
    else
      match chunksGo docLine rest with
      | Chunk.code t :: cs => Chunk.code (l ++ t) :: cs
      | cs => Chunk.code l :: cs

def pyInlineChunks (cs : Chars) : List Chunk :=
  chunksGo pyDocLine (splitNlKeepA cs)

/-- One line of `inline_prefix.sub("", docs)` where `inline_prefix` is
`^[ \t]*#` (multiline): the blanks and the delimiter are removed. -/
def stripInlineLine (l : Chars) : Chars :=
  match l.dropWhile isBlankCh with
  | '#' :: rest => rest
  | _ => l

def stripInlineDocs (s : String) : String :=
  String.mk (((splitNlKeep s.data).map stripInlineLine).flatten)

/-- Turn a chunk into a fresh section.

Modelled from the spec: `split_section_by_regex` lives in the absent
`utils.py`.  Spec section 4.1: matched text becomes documentation-like
sections (tagged when a tag is given), non-matching remainders stay as
code, and the original section's documentation (and metadata) stays
with the first produced section. -/
def chunkToSection : Chunk → Section
  | Chunk.code t => { code_text := String.mk t }
  | Chunk.doc t => { docs_text := String.mk t }

def inheritFirst (orig : Section) : List Section → List Section
  | [] => []
  | s :: rest =>
    { s with docs_text := orig.docs_text ++ s.docs_text,
             meta := if orig.meta != "" then orig.meta else s.meta,
             level := orig.level,
             scope := orig.scope } :: rest

/-- Pass `InlineCommentLanguage.parse_inline` for Python: split the section
at the comment runs, then strip the `^[ \t]*#` prefix from the
documentation of every section not already tagged `"stripped"` and tag
it. -/
def pyParseInlineBody (s : Section) : List Section :=
  let chunks := pyInlineChunks s.code_text.data
  let newSecs :=
    if chunks.any (fun c => match c with | Chunk.doc _ => true | _ => false) then
      inheritFirst s (chunks.map chunkToSection)
    else [s]
  newSecs.map (fun t =>
    if t.meta = "stripped" then t
    else { t with docs_text := stripInlineDocs t.docs_text, meta := "stripped" })

/-!
## MultilineCommentLanguage for Python

`multiline_re` is `^(\s*"""((?!""")[\s\S])*)"""` (multiline): from a
line start, whitespace (possibly spanning lines) leading directly to
`"""`, then everything up to the first closing `"""`.  Group 1 carries
the leading whitespace, the opening delimiter and the body; the
closing delimiter is outside the group.
-/

def tripleQuote : Chars := ['\"', '\"', '\"']

/-- Find the first closing `"""`, returning the text before it and the
text after it. -/
def findClose : Chars → Option (Chars × Chars)
  | [] => none
  | c :: rest =>
    if tripleQuote.isPrefixOf (c :: rest) then some ([], rest.drop 2)
    else (findClose rest).map (fun p => (c :: p.1, p.2))

/-- Scan the line starts of a text for the first `multiline_re` match;
returns `(text before the match, group 1, text after the match)`. -/
def pyDocstringScan : Nat → Chars → Option (Chars × Chars × Chars)
  | 0, _ => none
  | _, [] => none
  | fuel + 1, cs =>
    let w := cs.dropWhile isPyWs
    let tryHere : Option (Chars × Chars × Chars) :=
      if tripleQuote.isPrefixOf w then
        match findClose (w.drop 3) with
        | some (body, after) =>
          some ([], cs.take (cs.length - w.length) ++ tripleQuote ++ body, after)
        | none => none
      else none
    match tryHere with
    | some r => some r
    | none =>
      let l := takeLine cs
      if l.length = cs.length then none
      else
        (pyDocstringScan fuel (cs.drop l.length)).map
          (fun r => (l ++ r.1, r.2.1, r.2.2))

/-- The substitution `re.sub(r'^\n*(\s*)"""', r'\1', docs)` applied by
`parse_multiline` to the first section of the splice. -/
def stripLeadingTq (d : String) : String :=
  let t1 := d.data.dropWhile (· = '\n')
  let sp := t1.takeWhile isPyWs
  let rest := t1.dropWhile isPyWs
  if tripleQuote.isPrefixOf rest then String.mk (sp ++ rest.drop 3) else d

/-- Pass `MultilineCommentLanguage.parse_multiline` for Python: split the
section at the first docstring (matched text becomes a section tagged
`"stripped"`), then rewrite the first section's documentation with
`stripLeadingTq`. -/
def pyParseMultilineBody (s : Section) : List Section :=
  let secs :=
    match pyDocstringScan (s.code_text.data.length + 1) s.code_text.data with
    | none => [s]
    | some (pre, doc, after) =>
      let mids :=
        (if pre = [] then [] else [({ code_text := String.mk pre } : Section)]) ++
        [({ docs_text := String.mk doc, meta := "stripped" } : Section)] ++
        (if after = [] then [] else [({ code_text := String.mk after } : Section)])
      inheritFirst s mids
  match secs with
  | [] => []
  | f :: rest => { f with docs_text := stripLeadingTq f.docs_text } :: rest

/-!
## IndentBasedLanguage.split_by_scopes for Python

Two searches on the section's code:
1. the sibling/outer-block search
   `re.compile(r"^(\s{0,N}\S)", re.M).search(code, pos=len(indent)+1)`
   with `N = len(indent) - 1`.  When `indent` is empty, `N = -1` and
   Python's regex engine treats the malformed quantifier braces as
   literal text, so the pattern matches a line start followed by one
   whitespace character, the literal seven characters `\x7b0,-1\x7d`
   and one non-whitespace character;
2. the scope-keyword search with
   `(^\s*(def) |^\s*(class) |^\s*(@)\w+)` (multiline), skipping a
   match at position 0 after recording it as the section's own scope.
-/

/-- Helper `split_code_by_pos`.

Modelled from the spec: the function lives in the absent `utils.py`;
spec section 4.1 (`split_by_position`): the first section keeps the
code before `pos` and the documentation, the second gets the code from
`pos` onward. -/
def splitCodeByPos (s : Section) (p : Nat) : Section × Section :=
  ({ s with code_text := String.mk (s.code_text.data.take p) },
   { code_text := String.mk (s.code_text.data.drop p) })

/-- Try alternative `^\s*(def) `, `^\s*(class) ` or `^\s*(@)\w+` at a
`^` position; returns the length of the whole match (which is also
group 1 of the outer alternation). -/
def pyKwAt (cs : Chars) : Option Nat :=
  let w := cs.dropWhile isPyWs
  let wl := cs.length - w.length
  if "def ".data.isPrefixOf w then some (wl + 4)
  else if "class ".data.isPrefixOf w then some (wl + 6)
  else
    match w with
    | '@' :: rest =>
      let r := rest.takeWhile isWordCh
      if r ≠ [] then some (wl + 1 + r.length) else none
    | _ => none

/-- Search `regex.search(code, pos)` for the scope-keyword alternation:
earliest `^` position `≥ pos` at which `pyKwAt` succeeds, with the
match length. -/
def pyFindKw (cs : Chars) (pos : Nat) : Option (Nat × Nat) :=
  (lineStarts cs).findSome? (fun p =>
    if pos ≤ p then (pyKwAt (cs.drop p)).map (fun len => (p, len))
    else none)

/-- Search `re.compile(r"^(\s{0,N}\S)", re.M).search(code, pos)` for `N ≥ 0`:
earliest `^` position `≥ pos` whose whitespace run has length `≤ N`
and is followed by a character; returns the position and group 1 (the
run plus that character). -/
def pyFindSibling (n : Nat) (cs : Chars) (pos : Nat) : Option (Nat × Chars) :=
  (lineStarts cs).findSome? (fun p =>
    if pos ≤ p then
      let t := cs.drop p
      let w := t.takeWhile isPyWs
      if w.length ≤ n then
        match t.drop w.length with
        | c :: _ => some (p, w ++ [c])
        | [] => none
      else none
    else none)

/-- The literal pattern produced for a zero-indent section (see the
section comment above): `^`, one whitespace character, the literal
text `\x7b0,-1\x7d`, one non-whitespace character. -/
def pyFindWeird (cs : Chars) (pos : Nat) : Option (Nat × Chars) :=
  (lineStarts cs).findSome? (fun p =>
    if pos ≤ p then
      match cs.drop p with
      | c :: rest =>
        if isPyWs c && "\x7b0,-1\x7d".data.isPrefixOf rest then
          match rest.drop 7 with
          | d :: _ => if isPyWs d then none else some (p, c :: "\x7b0,-1\x7d".data ++ [d])
          | [] => none
        else none
      | [] => none
    else none)

/-- The scope-keyword half of `split_by_scopes`, applied to the (first)
section: record a self-match at position 0 as the section's scope,
then split at the next keyword occurrence, stripping newlines from the
new section's code and labelling it. -/
def pyKwStep (t : Section) : List Section :=
  let code := t.code_text.data
  match pyFindKw code 0 with
  | none => [t]
  | some (p, len) =>
    if p = 0 then
      let t1 := { t with scope := String.mk (stripWs (code.take len)) }
      match pyFindKw code 1 with
      | none => [t1]
      | some (p2, len2) =>
        let (a, b) := splitCodeByPos t1 p2
        [a, { b with code_text := String.mk (stripNlBoth b.code_text.data),
                     scope := String.mk (stripWs ((code.drop p2).take len2)) }]
    else
      let (a, b) := splitCodeByPos t p
      [a, { b with code_text := String.mk (stripNlBoth b.code_text.data),
                   scope := String.mk (stripWs ((code.drop p).take len)) }]

/-- Pass `IndentBasedLanguage.split_by_scopes` for Python. -/
def pySplitByScopesBody (s : Section) : List Section :=
  let code := s.code_text.data
  let indent := (stripNlBoth code).takeWhile isPyWs
  let k := indent.length
  let sib : Option (Nat × Chars) :=
    if k = 0 then pyFindWeird code (k + 1)
    else pyFindSibling (k - 1) code (k + 1)
  match sib with
  | none => pyKwStep s
  | some (p, g1) =>
    let (a, b) := splitCodeByPos s p
    let a1 := { a with level := k }
    let b1 := { b with level := (g1.dropWhile (· = '\n')).length }
    pyKwStep a1 ++ [b1]

/-- The strategy assembled by `Python.strategy` through the
cooperative `super()` chain: the base strategy, `parse_inline` then
`parse_multiline` pushed to the front, `split_by_scopes` inserted
before `merge_up`, `python_absorb` inserted before `absorb`. -/
def pythonKwMatch (l : Chars) : Bool :=
  let t := l.dropWhile isPyWs
  "def ".data.isPrefixOf t || "class ".data.isPrefixOf t ||
    (match t with
     | '@' :: c :: _ => isWordCh c
     | _ => false)

def pythonStrategy : List (String × Pass) :=
  insertBefore "absorb" ("python_absorb", mergePass pythonAbsorbRule)
    (insertBefore "merge_up" ("split_by_scopes", splitPass pySplitByScopesBody)
      (("parse_multiline", splitPass pyParseMultilineBody) ::
       ("parse_inline", splitPass pyParseInlineBody) ::
       baseStrategyFor pythonKwMatch))

def pythonParse (code : String) : List Section := parseWith pythonStrategy code

/-!
## Language definitions: names, extensions, filename substitutions

The per-language configuration consumed by `transform_filename` and by
the registry (`extensions_mapping`, `get_language`).  `name` is the
class name (`Language.name`), except `CoffeeScript`, which overrides
it with the class attribute `"Coffee-Script"`.
-/

structure LangInfo where
  name : String
  extensions : List String
  filename_substitutes : List (String × String) := []
deriving Repr, DecidableEq

def markdownInfo : LangInfo :=
  { name := "Markdown", extensions := [".md"],
    filename_substitutes := [("index.md", "index.html")] }

def pythonInfo : LangInfo :=
  { name := "Python", extensions := [".py", ".pyx"],
    filename_substitutes := [("__init__.py", "index.html")] }

def fortranInfo : LangInfo := { name := "Fortran", extensions := [".f", ".f90"] }

def phpInfo : LangInfo := { name := "PHP", extensions := [".php"] }

def cInfo : LangInfo := { name := "C", extensions := [".c", ".cpp", ".h", ".cc"] }

def javaScriptInfo : LangInfo := { name := "JavaScript", extensions := [".js"] }

def rubyInfo : LangInfo := { name := "Ruby", extensions := [".rb"] }

def haskellInfo : LangInfo := { name := "Haskell", extensions := [".hs"] }

def luaInfo : LangInfo := { name := "Lua", extensions := [".lua"] }

def erlangInfo : LangInfo := { name := "Erlang", extensions := [".erl"] }

def tclInfo : LangInfo := { name := "Tcl", extensions := [".tcl"] }

def coffeeScriptInfo : LangInfo := { name := "Coffee-Script", extensions := [".coffee"] }

def perlInfo : LangInfo := { name := "Perl", extensions := [".pl"] }

def sqlInfo : LangInfo := { name := "SQL", extensions := [".sql"] }

def schemeInfo : LangInfo := { name := "Scheme", extensions := [".scm"] }

def clojureInfo : LangInfo := { name := "Clojure", extensions := [".cljs", ".clj"] }

/-- Definition `PlainText` is present in the source but not listed in `languages`,
so it never reaches the registry. -/
def plainTextInfo : LangInfo :=
  { name := "PlainText", extensions := [".txt"],
    filename_substitutes := [("index.txt", "index.html")] }

/-- The `languages` list of the source, in order. -/
def languages : List LangInfo :=
  [markdownInfo, pythonInfo, fortranInfo, phpInfo, cInfo,
   javaScriptInfo, rubyInfo, haskellInfo, luaInfo, erlangInfo, tclInfo,
   coffeeScriptInfo, perlInfo, sqlInfo, schemeInfo, clojureInfo]

/-- Method `Language.transform_filename`: an exact filename substitution wins;
otherwise, for the first declared extension the filename ends with,
`filename + ".html"` is returned; otherwise the filename is
unchanged. -/
def transformFilenameExt (filename : String) : List String → String
  | [] => filename
  | ext :: rest =>
    if ext.data.isSuffixOf filename.data then filename ++ ".html"
    else transformFilenameExt filename rest

def transform_filename (lang : LangInfo) (filename : String) : String :=
  match lang.filename_substitutes.lookup filename with
  | some subst => subst
  | none => transformFilenameExt filename lang.extensions

/-!
## Registry and dispatch
-/

/-- Assignment `extensions_mapping[extension] = instance`: dictionary assignment,
a later language silently overwrites an earlier claim on the same
extension. -/
def dictInsert (m : List (String × LangInfo)) (k : String) (v : LangInfo) :
    List (String × LangInfo) :=
  if m.any (fun e => e.1 = k) then
    m.map (fun e => if e.1 = k then (k, v) else e)
  else m ++ [(k, v)]

/-- The `for language in languages: for extension in ...` loops that
build `extensions_mapping`. -/
def buildExtensionsMapping (ls : List LangInfo) : List (String × LangInfo) :=
  ls.foldl (fun m lang => lang.extensions.foldl (fun m2 e => dictInsert m2 e lang) m) []

def extensions_mapping : List (String × LangInfo) := buildExtensionsMapping languages

def mappingValues (m : List (String × LangInfo)) : List LangInfo := m.map Prod.snd

/-- Python `str.lower()` as the character-wise ASCII lowering pygments names
undergo before the comparison in `get_language`. -/
def strToLower (s : String) : String := String.mk (s.data.map Char.toLower)

/-- Python `os.path.basename`: the part after the last slash. -/
def basenameOf (source : String) : Chars :=
  (source.data.reverse.takeWhile (· ≠ '/')).reverse

/-- Extension extraction `re.match(r'.*(\..+)', basename)`: `.` does
not cross newlines, the greedy prefix pushes group 1 to the last dot
of the first line that still has at least one character after it, and
the greedy `.+` extends the group to the end of that line. -/
def extScan : Chars → Chars → Option Chars
  | _, [] => none
  | acc, c :: rest =>
    if c = '.' && acc ≠ [] then some ('.' :: acc) else extScan (c :: acc) rest

def extOf (basename : Chars) : Option Chars :=
  extScan [] (basename.takeWhile (· ≠ '\n')).reverse

/-- Dispatch `get_language(source, code, language)`.  The pygments call
`lexers.guess_lexer(code)` is an external collaborator; its outcome is
the `guess` argument: `none` when it raises, `some name` when it
returns a lexer named `name` (the source lowercases that name before
comparing).  `Except.error` is the `ValueError` raised for an unknown
forced language. -/
def get_language (source : String) (guess : Option String)
    (language : Option String) : Except String (Option LangInfo) :=
  match language with
  | some lang =>
    match (mappingValues extensions_mapping).find? (fun l => l.name = lang) with
    | some l => Except.ok (some l)
    | none => Except.error ("Unknown forced language: " ++ lang)
  | none =>
    let found :=
      match extOf (basenameOf source) with
      | some ext => extensions_mapping.lookup (String.mk ext)
      | none => none
    match found with
    | some l => Except.ok (some l)
    | none =>
      match guess with
      | none => Except.ok none
      | some nm =>
        Except.ok ((mappingValues extensions_mapping).find?
          (fun l => l.name = strToLower nm))

/-!
## Constants used by the theorem statements
-/

/-- The shebang line of the spec's ignored-pattern property. -/
def shebangLine : String := "#!/usr/bin/env x\n"

/-- Two ordinary inline-comment lines. -/
def commentA : String := "# a\n"

def commentB : String := "# b\n"

def joinStrings (ls : List String) : String :=
  String.mk ((ls.map String.data).flatten)

/-- Test datum for the registry: a second definition claiming `.py`,
already declared by `Python`. -/
def dupInfo : LangInfo := { name := "Dup", extensions := [".py"] }

/-- Key lookup in the extension registry (dictionary access). -/
def lookupExt (m : List (String × LangInfo)) (ext : String) : Option LangInfo :=
  m.lookup ext

/-- Invariant carried through the Python pipeline for an input made of
ordinary comment lines and one shebang line: every section's code is
empty or exactly the shebang line, its documentation contains no `#`
character, it has no scope label and its level is zero. -/
def shebInv (s : Section) : Prop :=
  (s.code_text = "" ∨ s.code_text = shebangLine) ∧
  '#' ∉ s.docs_text.data ∧ s.scope = "" ∧ s.level = 0

/-!
## Helper lemmas
-/

theorem empty_append_str (s : String) : "" ++ s = s := by
  cases s
  rfl

theorem transformFilenameExt_hit (f : String) (exts : List String)
    (h : ∃ e ∈ exts, e.data.isSuffixOf f.data = true) :
    transformFilenameExt f exts = f ++ ".html" := by
  induction exts with
  | nil => simp at h
  | cons e rest ih =>
    obtain ⟨e1, he1, hsuf⟩ := h
    unfold transformFilenameExt
    by_cases hc : e.data.isSuffixOf f.data = true
    · simp [hc]
    · simp only [List.mem_cons] at he1
      rcases he1 with rfl | hmem
      · exact absurd hsuf hc
      · simp only [hc]
        simp only [Bool.false_eq_true, if_false]
        exact ih ⟨e1, hmem, hsuf⟩

theorem transformFilenameExt_miss (f : String) (exts : List String)
    (h : ∀ e ∈ exts, ¬ e.data.isSuffixOf f.data = true) :
    transformFilenameExt f exts = f := by
  induction exts with
  | nil => rfl
  | cons e rest ih =>
    unfold transformFilenameExt
    have he : ¬ e.data.isSuffixOf f.data = true := h e (List.mem_cons_self e rest)
    simp only [he]
    simp only [Bool.false_eq_true, if_false]
    exact ih (fun e1 h1 => h e1 (List.mem_cons_of_mem e h1))

theorem lookup_replace_ne (m : List (String × LangInfo)) (k : String) (v : LangInfo)
    (k2 : String) (h : k2 ≠ k) :
    (m.map (fun e => if e.1 = k then (k, v) else e)).lookup k2 = m.lookup k2 := by
  induction m with
  | nil => rfl
  | cons e rest ih =>
    by_cases he : e.1 = k
    · simp only [List.map_cons, he, if_true]
      have h1 : (k2 == k) = false := by simp [h]
      have h2 : (k2 == e.1) = false := by simp [he, h]
      simp [List.lookup, h1, h2, ih]
    · simp only [List.map_cons, he, if_false]
      by_cases hk2 : k2 = e.1
      · simp [List.lookup, hk2]
      · have h2 : (k2 == e.1) = false := by simp [hk2]
        simp [List.lookup, h2, ih]

theorem lookup_replace_self (m : List (String × LangInfo)) (k : String) (v : LangInfo)
    (h : m.any (fun e => e.1 = k) = true) :
    (m.map (fun e => if e.1 = k then (k, v) else e)).lookup k = some v := by
  induction m with
  | nil => simp at h
  | cons e rest ih =>
    by_cases he : e.1 = k
    · simp only [List.map_cons, he, if_true]
      simp [List.lookup]
    · simp only [List.any_cons, Bool.or_eq_true, decide_eq_true_eq] at h
      rcases h with h | h
      · exact absurd h he
      · have h2 : (k == e.1) = false := by
          simp only [beq_eq_false_iff_ne, ne_eq]
          exact fun hk => he hk.symm
        simp only [List.map_cons, he, if_false]
        simp [List.lookup, h2, ih h]

theorem lookup_append_str (m1 m2 : List (String × LangInfo)) (k : String) :
    (m1 ++ m2).lookup k =
      match m1.lookup k with
      | some v => some v
      | none => m2.lookup k := by
  induction m1 with
  | nil => rfl
  | cons e rest ih =>
    by_cases hk : k = e.1
    · simp [List.lookup, hk]
    · have h2 : (k == e.1) = false := by simp [hk]
      simp [List.lookup, h2, ih]

theorem lookup_any_none (m : List (String × LangInfo)) (k : String)
    (h : m.any (fun e => e.1 = k) = false) : m.lookup k = none := by
  induction m with
  | nil => rfl
  | cons e rest ih =>
    simp only [List.any_cons, Bool.or_eq_false_iff, decide_eq_false_iff_not] at h
    have h2 : (k == e.1) = false := by
      simp only [beq_eq_false_iff_ne, ne_eq]
      exact fun hk => h.1 hk.symm
    simp [List.lookup, h2, ih h.2]

theorem lookup_dictInsert (m : List (String × LangInfo)) (k : String) (v : LangInfo)
    (k2 : String) :
    lookupExt (dictInsert m k v) k2 =
      if k2 = k then some v else lookupExt m k2 := by
  unfold dictInsert lookupExt
  by_cases hany : m.any (fun e => e.1 = k) = true
  · simp only [hany, if_true]
    by_cases hk : k2 = k
    · subst hk
      simp [lookup_replace_self m k2 v hany]
    · simp [lookup_replace_ne m k v k2 hk, hk]
  · have hany2 : m.any (fun e => e.1 = k) = false := by
      revert hany
      cases m.any (fun e => e.1 = k) <;> simp
    simp only [hany2, Bool.false_eq_true, if_false]
    rw [lookup_append_str]
    by_cases hk : k2 = k
    · subst hk
      rw [lookup_any_none m k2 hany2]
      simp [List.lookup]
    · have h2 : (k2 == k) = false := by simp [hk]
      simp only [hk, if_false]
      cases hm : m.lookup k2 with
      | some v2 => simp
      | none => simp [List.lookup, h2]

theorem lookup_extFold (exts : List String) (lang : LangInfo)
    (m : List (String × LangInfo)) (ext : String) :
    lookupExt (exts.foldl (fun m2 e => dictInsert m2 e lang) m) ext =
      if ext ∈ exts then some lang else lookupExt m ext := by
  induction exts generalizing m with
  | nil => simp
  | cons e rest ih =>
    simp only [List.foldl_cons]
    rw [ih]
    by_cases h1 : ext ∈ rest
    · simp [h1]
    · rw [lookup_dictInsert]
      by_cases h2 : ext = e
      · simp [h1, h2]
      · simp [h1, h2, List.mem_cons]

theorem mergePass_single (rule : Section → Section → Option Section) (x : Section) :
    mergePass rule [x] = [x] := rfl

theorem stripDocsSec_no_docs (s : Section) (h : s.docs_text = "") : stripDocsSec s = s := by
  obtain ⟨d, c, l, sc, m⟩ := s
  change d = "" at h
  subst h
  rfl

/-!
## Claim theorems
-/

/-- C2 (counterexample): for the Python definition and the filename
`foo.py`, whose extension `.py` is declared, `transform_filename`
returns `foo.py.html` — the extension is kept and `.html` appended —
and not `foo.html`, which replacing the extension with the fixed
suffix would produce. -/
theorem c2_transform_filename_counterexample :
    transform_filename pythonInfo "foo.py" = "foo.py.html" ∧
    transform_filename pythonInfo "foo.py" ≠ "foo.html" := by
  decide

/-- C2 (amended): `transform_filename` applies the exact
filename-substitution table first; otherwise, if the filename ends
with one of the language's extensions, it APPENDS the fixed suffix
`.html` to the whole filename (the extension is not removed);
otherwise it returns the filename unchanged. -/
theorem c2_transform_filename_amended :
    (∀ (lang : LangInfo) (f v : String),
        lang.filename_substitutes.lookup f = some v →
        transform_filename lang f = v) ∧
    (∀ (lang : LangInfo) (f : String),
        lang.filename_substitutes.lookup f = none →
        (∃ e ∈ lang.extensions, e.data.isSuffixOf f.data = true) →
        transform_filename lang f = f ++ ".html") ∧
    (∀ (lang : LangInfo) (f : String),
        lang.filename_substitutes.lookup f = none →
        (∀ e ∈ lang.extensions, ¬ e.data.isSuffixOf f.data = true) →
        transform_filename lang f = f) := by
  refine ⟨?_, ?_, ?_⟩
  · intro lang f v h
    unfold transform_filename
    rw [h]
  · intro lang f h hex
    unfold transform_filename
    rw [h]
    exact transformFilenameExt_hit f _ hex
  · intro lang f h hall
    unfold transform_filename
    rw [h]
    exact transformFilenameExt_miss f _ hall

/-- C2 (witness): the amended theorem applied to the Python definition
and `foo.py`. -/
theorem c2_transform_filename_witness :
    pythonInfo.filename_substitutes.lookup "foo.py" = none ∧
    (∃ e ∈ pythonInfo.extensions, e.data.isSuffixOf ("foo.py").data = true) ∧
    transform_filename pythonInfo "foo.py" = "foo.py" ++ ".html" :=
  ⟨by decide, by decide,
   c2_transform_filename_amended.2.1 pythonInfo "foo.py" (by decide) (by decide)⟩

/-- C3 (counterexample): `Python` and the distinct definition `Dup`
both declare the extension `.py`, yet building the registry from them
signals nothing and produces a registry in which the later definition
silently owns `.py`. -/
theorem c3_registry_counterexample :
    pythonInfo ≠ dupInfo ∧
    ".py" ∈ pythonInfo.extensions ∧ ".py" ∈ dupInfo.extensions ∧
    buildExtensionsMapping [pythonInfo, dupInfo] =
      [(".py", dupInfo), (".pyx", pythonInfo)] := by
  decide

/-- C3 (amended): building the registry never fails: a later
definition silently overwrites an earlier claim on the same extension
(last-wins); the built-in definitions happen to declare pairwise
distinct extensions, so every built-in extension maps to the
definition that declares it. -/
theorem c3_registry_amended :
    (∀ (ls : List LangInfo) (l : LangInfo) (ext : String),
        lookupExt (buildExtensionsMapping (ls ++ [l])) ext =
          if ext ∈ l.extensions then some l
          else lookupExt (buildExtensionsMapping ls) ext) ∧
    ((languages.map (fun l => l.extensions)).flatten.Nodup) ∧
    (languages.all (fun lang => lang.extensions.all
        (fun ext => lookupExt extensions_mapping ext == some lang)) = true) := by
  refine ⟨?_, by decide, by decide⟩
  intro ls l ext
  unfold buildExtensionsMapping
  rw [List.foldl_append]
  simp only [List.foldl_cons, List.foldl_nil]
  exact lookup_extFold l.extensions l _ ext

/-- C4 (counterexample): a case-insensitive match for the forced name
`python` exists among the registered definitions (`Python`), yet
`get_language` raises the unknown-forced-language error, because the
comparison in the source is case-sensitive. -/
theorem c4_forced_language_counterexample :
    (∃ x ∈ mappingValues extensions_mapping,
        strToLower x.name = strToLower "python") ∧
    get_language "f.xyz" none (some "python") =
      Except.error ("Unknown forced language: " ++ "python") := by
  exact ⟨by decide, rfl⟩

/-- C4 (amended): for a forced language name, `get_language` returns a
definition whose name matches the forced name EXACTLY
(case-sensitively), and raises the unknown-forced-language error when
no definition's name is exactly equal. -/
theorem c4_forced_language_amended :
    (∀ (src : String) (g : Option String) (lang : String),
        (∃ x ∈ mappingValues extensions_mapping, x.name = lang) →
        ∃ l, get_language src g (some lang) = Except.ok (some l) ∧ l.name = lang) ∧
    (∀ (src : String) (g : Option String) (lang : String),
        (∀ x ∈ mappingValues extensions_mapping, x.name ≠ lang) →
        get_language src g (some lang) =
          Except.error ("Unknown forced language: " ++ lang)) := by
  constructor
  · intro src g lang hex
    have h1 : ((mappingValues extensions_mapping).find?
        (fun x => x.name = lang)).isSome := by
      rw [List.find?_isSome]
      obtain ⟨x, hx, hn⟩ := hex
      exact ⟨x, hx, by simp [hn]⟩
    obtain ⟨l, hl⟩ := Option.isSome_iff_exists.mp h1
    have hname : l.name = lang := by
      have h2 := List.find?_some hl
      simpa using h2
    refine ⟨l, ?_, hname⟩
    unfold get_language
    simp only [hl]
  · intro src g lang hall
    have h1 : (mappingValues extensions_mapping).find?
        (fun x => x.name = lang) = none := by
      rw [List.find?_eq_none]
      intro x hx
      simp [hall x hx]
    unfold get_language
    simp only [h1]

/-- C4 (witness): the amended theorem applied to the forced name
`Python`, which is matched exactly. -/
theorem c4_forced_language_witness :
    (∃ x ∈ mappingValues extensions_mapping, x.name = "Python") ∧
    (∃ l, get_language "f.xyz" none (some "Python") = Except.ok (some l) ∧
      l.name = "Python") :=
  ⟨by decide, c4_forced_language_amended.1 "f.xyz" none "Python" (by decide)⟩

/-- C5 (counterexample): `merge_down` on a documentation-only section
labelled `def` followed by a code-only section labelled `class`
produces a merged section labelled `class`: the previous section's
scope label changes even though it already had one. -/
theorem c5_merge_down_counterexample :
    mergePass mergeDownRule
        [{ docs_text := "d\n", scope := "def" }, { code_text := "c\n", scope := "class" }] =
      [{ docs_text := "d\n", code_text := "c\n", scope := "class" }] ∧
    ({ docs_text := "d\n", scope := "def" } : Section).scope ≠ "" ∧
    ("class" : String) ≠ "def" := by
  decide

/-- C5 (amended): when the previous section has documentation but no
code and the current one has code but no documentation, `merge_down`
concatenates the current section's code into the previous section and
deletes the current section; the previous section takes the current
section's scope label whenever the current section has one (even if
the previous already had a label), and keeps its own label only when
the current section has none. -/
theorem c5_merge_down_amended :
    ∀ prev cur : Section,
      prev.code_text = "" → prev.docs_text ≠ "" →
      cur.docs_text = "" → cur.code_text ≠ "" →
      mergePass mergeDownRule [prev, cur] =
        [{ prev with code_text := prev.code_text ++ cur.code_text,
                     scope := if cur.scope != "" then cur.scope else prev.scope }] := by
  intro prev cur h1 h2 h3 h4
  have hb1 : prev.has_code = false := by simp [Section.has_code, h1]
  have hb2 : prev.has_docs = true := by simp [Section.has_docs, h2]
  have hb3 : cur.has_docs = false := by simp [Section.has_docs, h3]
  have hb4 : cur.has_code = true := by simp [Section.has_code, h4]
  simp [mergePass, mergePass.mergeGo, mergeDownRule, hb1, hb2, hb3, hb4, h1,
        empty_append_str]

/-- C5 (witness): the amended theorem applied to a concrete
documentation-only section followed by a concrete code-only
section. -/
theorem c5_merge_down_witness :
    mergePass mergeDownRule
        [{ docs_text := "d\n" }, { code_text := "c\n", scope := "def" }] =
      [{ docs_text := "d\n",
         code_text := ({ docs_text := "d\n" } : Section).code_text ++ "c\n",
         scope := if ("def" : String) != "" then "def" else "" }] :=
  c5_merge_down_amended { docs_text := "d\n" } { code_text := "c\n", scope := "def" }
    rfl (by decide) rfl (by decide)

/-- C7: the Python strategy inserts `python_absorb` immediately before
`absorb`; whenever the previous section's scope label contains the
decorator marker `'@'`, the pass prepends its documentation and code
to the current section and deletes it (one merged section remains);
and the Python input `"@deco\ndef f(): pass\n"` parses to a single
section rather than a separate section for the decorator. -/
theorem c7_python_absorb :
    (pythonStrategy.map Prod.fst =
      ["parse_multiline", "parse_inline", "set_sections_levels",
       "strip_docs_indentation", "set_sections_levels", "split_by_scopes",
       "merge_up", "set_sections_levels", "merge_down", "set_sections_levels",
       "python_absorb", "absorb"]) ∧
    (∀ prev cur : Section, prev.scope.data.contains '@' = true →
      mergePass pythonAbsorbRule [prev, cur] =
        [{ cur with docs_text := prev.docs_text ++ cur.docs_text,
                    code_text := prev.code_text ++ cur.code_text }]) ∧
    pythonParse "@deco\ndef f(): pass\n" =
      [{ docs_text := "", code_text := "@deco\ndef f(): pass", level := 0,
         scope := "def", meta := "" }] := by
  refine ⟨by decide, ?_, by decide⟩
  intro prev cur h
  have h2 : '@' ∈ prev.scope.data := by
    simpa using h
  simp [mergePass, mergePass.mergeGo, pythonAbsorbRule, h2]

/-- C7 (witness): the decorator-merge clause of the theorem applied to
a concrete decorator section followed by a concrete code section. -/
theorem c7_python_absorb_witness :
    ({ scope := "@deco", code_text := "@deco\n" } : Section).scope.data.contains '@'
        = true ∧
    mergePass pythonAbsorbRule
        [{ scope := "@deco", code_text := "@deco\n" }, { code_text := "def f(): pass" }] =
      [{ docs_text := ({ scope := "@deco", code_text := "@deco\n" } : Section).docs_text
            ++ "",
         code_text := "@deco\n" ++ "def f(): pass" }] :=
  ⟨by decide,
   c7_python_absorb.2.1 { scope := "@deco", code_text := "@deco\n" }
     { code_text := "def f(): pass" } (by decide)⟩

/-- C8 (counterexample): `Markdown` is a language definition whose
`parse` bypasses the final filtering: on the empty input it returns
one section with empty documentation and empty code. -/
theorem c8_empty_section_counterexample :
    markdownParse "" = [{ docs_text := "" }] ∧
    ({ docs_text := "" } : Section).has_docs = false ∧
    ({ docs_text := "" } : Section).has_code = false := by
  decide

/-- C8 (amended): for every language whose `parse` runs a strategy and
the final filter (every definition except `PlainText` and `Markdown`),
each returned section has code or documentation; `PlainText` and
`Markdown` return one unfiltered documentation section, which is empty
exactly when the input is empty. -/
theorem c8_filtered_sections_nonempty :
    ∀ (strategy : List (String × Pass)) (code : String) (s : Section),
      s ∈ parseWith strategy code → s.has_code = true ∨ s.has_docs = true := by
  intro strategy code s hs
  unfold parseWith at hs
  have h1 := List.of_mem_filter hs
  simpa [Bool.or_eq_true] using h1

/-- C8 (witness): the amended theorem applied to the base strategy on
the input `"x"`. -/
theorem c8_filtered_sections_witness :
    ({ code_text := "x" } : Section) ∈ parseWith baseStrategy "x" ∧
    (({ code_text := "x" } : Section).has_code = true ∨
     ({ code_text := "x" } : Section).has_docs = true) :=
  ⟨by decide, c8_filtered_sections_nonempty baseStrategy "x" _ (by decide)⟩

/-- C9: when the file's extracted extension is not a registry key and
the content-based guess either fails (the external guesser raises) or
yields a name matching no registered definition, `get_language`
without a forced language returns `None`; it is a total function into
`Except.ok` on this path, so no exception escapes. -/
theorem c9_get_language_not_found :
    ∀ (source : String) (guess : Option String),
      (∀ ext, extOf (basenameOf source) = some ext →
        lookupExt extensions_mapping (String.mk ext) = none) →
      (∀ nm, guess = some nm →
        ∀ x ∈ mappingValues extensions_mapping, x.name ≠ strToLower nm) →
      get_language source guess none = Except.ok none := by
  intro source guess h1 h2
  unfold get_language
  cases hext : extOf (basenameOf source) with
  | none =>
    cases guess with
    | none => rfl
    | some nm =>
      have h3 : (mappingValues extensions_mapping).find?
          (fun l => l.name = strToLower nm) = none := by
        rw [List.find?_eq_none]
        intro x hx
        simp [h2 nm rfl x hx]
      simp [h3]
  | some ext =>
    have h4 : lookupExt extensions_mapping (String.mk ext) = none := h1 ext hext
    unfold lookupExt at h4
    cases guess with
    | none => simp [h4]
    | some nm =>
      have h3 : (mappingValues extensions_mapping).find?
          (fun l => l.name = strToLower nm) = none := by
        rw [List.find?_eq_none]
        intro x hx
        simp [h2 nm rfl x hx]
      simp [h4, h3]

/-- C9 (witness): the theorem applied to `foo.xyz` (extension `.xyz`
is not registered) with a guessed name matching no definition. -/
theorem c9_get_language_not_found_witness :
    get_language "foo.xyz" (some "nosuchlang") none = Except.ok none :=
  c9_get_language_not_found "foo.xyz" (some "nosuchlang")
    (by
      intro ext h
      injection h with h
      subst h
      decide)
    (by
      intro nm h
      injection h with h
      subst h
      decide)

/-- C10: `PlainText.parse` and the inherited `Markdown.parse` return,
for every input, exactly one section whose documentation is the whole
input and whose code is empty; no strategy pass is involved. -/
theorem c10_plaintext_markdown_parse :
    ∀ code : String,
      plainTextParse code =
        [{ docs_text := code, code_text := "", level := 0, scope := "", meta := "" }] ∧
      markdownParse code =
        [{ docs_text := code, code_text := "", level := 0, scope := "", meta := "" }] :=
  fun _ => ⟨rfl, rfl⟩

/-- C1 (counterexample): on the Python input
`"x = 1\n\n\ndef f(): pass\n"` no line is classified as documentation,
yet the concatenated code text of the parsed sections is
`"x = 1\ndef f(): pass"`: the blank lines before `def` and the
trailing newline are dropped by the scope split, so the original code
lines are not reproduced. -/
theorem c1_code_preservation_counterexample :
    concatCode (pythonParse "x = 1\n\n\ndef f(): pass\n") = "x = 1\ndef f(): pass" ∧
    concatCode (pythonParse "x = 1\n\n\ndef f(): pass\n") ≠ "x = 1\n\n\ndef f(): pass\n" ∧
    (∀ s ∈ pythonParse "x = 1\n\n\ndef f(): pass\n", s.docs_text = "") := by
  refine ⟨by decide, by decide, ?_⟩
  decide

/-- C1 (amended): for the base language definition (no capability
passes) the concatenation of the code text of all sections returned by
`parse` reproduces the input exactly; for capability-composed
languages such as Python the pipeline may drop or insert blank lines
and trailing newlines at split and merge boundaries (and moves comment
lines into documentation), so the original code lines are not
reproduced in general. -/
theorem c1_base_code_preserved :
    ∀ code : String, concatCode (parseWith baseStrategy code) = code := by
  intro code
  by_cases h : code = ""
  · subst h
    rfl
  · unfold parseWith baseStrategy baseStrategyFor
    simp only [List.foldl_cons, List.foldl_nil]
    have e1 : set_sections_levels [{ code_text := code }] =
        [{ code_text := code, level := (code.data.takeWhile isBlankCh).length }] := by
      simp [set_sections_levels, setLevelsGo, h]
    rw [e1]
    have e2 : strip_docs_indentation
        [{ code_text := code, level := (code.data.takeWhile isBlankCh).length }] =
        [{ code_text := code, level := (code.data.takeWhile isBlankCh).length }] := by
      unfold strip_docs_indentation
      rw [List.map_singleton]
      rw [stripDocsSec_no_docs _ rfl]
    rw [e2]
    have e3 : set_sections_levels
        [{ code_text := code, level := (code.data.takeWhile isBlankCh).length }] =
        [{ code_text := code, level := (code.data.takeWhile isBlankCh).length }] := by
      simp [set_sections_levels, setLevelsGo, h]
    rw [e3, mergePass_single, e3, mergePass_single, e3, mergePass_single]
    have e4 : List.filter (fun s : Section => s.has_code || s.has_docs)
        [{ code_text := code, level := (code.data.takeWhile isBlankCh).length }] =
        [{ code_text := code, level := (code.data.takeWhile isBlankCh).length }] := by
      have hb : (code != "") = true := by simpa using h
      simp [List.filter, Section.has_code, Section.has_docs, hb]
    rw [e4]
    simp [concatCode, String.append_empty]

/-!
## Lemmas for the ignored-pattern property (C6)
-/

theorem mem_of_mem_dropWhile {x : Char} {p : Char → Bool} :
    ∀ {l : Chars}, x ∈ l.dropWhile p → x ∈ l := by
  intro l h
  induction l with
  | nil => simp at h
  | cons c t ih =>
    rw [List.dropWhile_cons] at h
    by_cases hp : p c = true
    · rw [if_pos hp] at h
      exact List.mem_cons_of_mem c (ih h)
    · rw [if_neg hp] at h
      exact h

theorem mem_of_mem_stripIndentLine {x : Char} (ind l : Chars)
    (h : x ∈ stripIndentLine ind l) : x ∈ l := by
  unfold stripIndentLine at h
  by_cases hc : ind.isPrefixOf l = true
  · rw [if_pos hc] at h
    exact List.mem_of_mem_drop h
  · rwa [if_neg hc] at h

theorem splitNlKeep_flatten : ∀ cs : Chars, (splitNlKeep cs).flatten = cs := by
  intro cs
  induction cs with
  | nil => rfl
  | cons c t ih =>
    unfold splitNlKeep at ih ⊢
    by_cases hc : c = '\n'
    · subst hc
      simp [splitNlKeepA, ih]
    · simp only [splitNlKeepA, if_neg hc]
      cases h : splitNlKeepA t with
      | nil =>
        rw [h] at ih
        simp only [List.map_nil, List.flatten_nil] at ih
        simp [← ih]
      | cons pa rest =>
        rw [h] at ih
        obtain ⟨l, a⟩ := pa
        simp only [List.map_cons, List.flatten_cons] at ih ⊢
        rw [← ih, List.cons_append]

theorem splitNlKeepA_line (b : Chars) (hb : '\n' ∉ b) (cs : Chars) :
    splitNlKeepA (b ++ '\n' :: cs) = (b ++ ['\n'], cs) :: splitNlKeepA cs := by
  induction b with
  | nil => simp [splitNlKeepA]
  | cons c b ih =>
    have hc : ¬ c = '\n' := fun h => hb (by simp [h])
    have hb2 : '\n' ∉ b := fun h => hb (List.mem_cons_of_mem c h)
    simp only [List.cons_append, splitNlKeepA, if_neg hc, List.append_eq]
    rw [ih hb2]

theorem joinStrings_cons (l : String) (ls : List String) :
    (joinStrings (l :: ls)).data = l.data ++ (joinStrings ls).data := by
  simp [joinStrings]

theorem comment_decomp (l : String) (h : l = commentA ∨ l = commentB) :
    ∃ b, l.data = b ++ ['\n'] ∧ '\n' ∉ b := by
  rcases h with rfl | rfl
  · exact ⟨['#', ' ', 'a'], rfl, by decide⟩
  · exact ⟨['#', ' ', 'b'], rfl, by decide⟩

theorem pyDocLine_comment (l : String) (hl : l = commentA ∨ l = commentB)
    (after : Chars) : pyDocLine l.data after = true := by
  rcases hl with rfl | rfl
  · rfl
  · rfl

theorem pyDocLine_shebang (after : Chars) : pyDocLine shebangLine.data after = false := rfl

theorem splitDriver_id (body : Section → List Section) :
    ∀ (fuel : Nat) (l : List Section), (∀ x ∈ l, body x = [x]) → l.length ≤ fuel →
      splitDriver body fuel l = l := by
  intro fuel
  induction fuel with
  | zero =>
    intro l h hl
    cases l with
    | nil => rfl
    | cons s rest => simp at hl
  | succ n ih =>
    intro l h hl
    cases l with
    | nil => rfl
    | cons s rest =>
      have hs : body s = [s] := h s (List.mem_cons_self s rest)
      simp only [splitDriver, hs, List.nil_append]
      rw [ih rest (fun x hx => h x (List.mem_cons_of_mem s hx))
          (by simpa using Nat.le_of_succ_le_succ hl)]

theorem splitDriver_step (body : Section → List Section) (fuel : Nat)
    (s : Section) (rest : List Section) (a : Section) (tail : List Section)
    (hb : body s = a :: tail) :
    splitDriver body (fuel + 1) (s :: rest) = a :: splitDriver body fuel (tail ++ rest) := by
  simp only [splitDriver, hb]

theorem fuelFor_single (s : Section) : fuelFor [s] = 2 * s.code_text.data.length + 6 := by
  simp only [fuelFor, List.foldl_cons, List.foldl_nil]
  omega

theorem foldl_fuel_le (secs : List Section) : ∀ n : Nat,
    secs.length + n ≤ secs.foldl (fun m s => m + 2 * s.code_text.data.length + 2) n := by
  induction secs with
  | nil => intro n; simp
  | cons s rest ih =>
    intro n
    simp only [List.length_cons, List.foldl_cons]
    have h2 := ih (n + 2 * s.code_text.data.length + 2)
    omega

theorem length_le_fuelFor (secs : List Section) : secs.length ≤ fuelFor secs := by
  have h := foldl_fuel_le secs 4
  unfold fuelFor
  omega

theorem splitPass_id (body : Section → List Section) (secs : List Section)
    (h : ∀ x ∈ secs, body x = [x]) : splitPass body secs = secs :=
  splitDriver_id body (fuelFor secs) secs h (length_le_fuelFor secs)

theorem splitPass_one (body : Section → List Section) (s a : Section)
    (tail : List Section) (hb : body s = a :: tail)
    (ht : ∀ x ∈ tail, body x = [x]) (hlen : tail.length + 1 ≤ fuelFor [s]) :
    splitPass body [s] = a :: tail := by
  unfold splitPass
  cases hf : fuelFor [s] with
  | zero => omega
  | succ n =>
    rw [splitDriver_step body n s [] a tail hb, List.append_nil]
    rw [splitDriver_id body n tail ht (by omega)]

theorem pyDocstringScan_noQuote : ∀ (fuel : Nat) (cs : Chars), '\"' ∉ cs →
    pyDocstringScan fuel cs = none := by
  intro fuel
  induction fuel with
  | zero =>
    intro cs h
    cases cs <;> rfl
  | succ n ih =>
    intro cs h
    cases cs with
    | nil => rfl
    | cons c rest =>
      have hw : ¬ tripleQuote.isPrefixOf ((c :: rest).dropWhile isPyWs) = true := by
        intro hq
        have hpre := List.isPrefixOf_iff_prefix.mp hq
        have hmem : '\"' ∈ (c :: rest).dropWhile isPyWs :=
          hpre.subset (by decide)
        exact h (mem_of_mem_dropWhile hmem)
      have hdrop : '\"' ∉ (c :: rest).drop (takeLine (c :: rest)).length :=
        fun hm => h (List.mem_of_mem_drop hm)
      unfold pyDocstringScan
      simp only [if_neg hw]
      by_cases hl : (takeLine (c :: rest)).length = (c :: rest).length
      · simp [hl]
      · simp only [hl, if_neg hl]
        rw [ih _ hdrop]
        rfl

theorem chunks_comments (ls : List String)
    (h : ∀ l ∈ ls, l = commentA ∨ l = commentB) :
    chunksGo pyDocLine (splitNlKeepA (joinStrings ls).data) =
      if ls = [] then [] else [Chunk.doc (joinStrings ls).data] := by
  induction ls with
  | nil => rfl
  | cons l rest ih =>
    have hl := h l (List.mem_cons_self l rest)
    obtain ⟨b, hb, hbn⟩ := comment_decomp l hl
    have hrest : ∀ x ∈ rest, x = commentA ∨ x = commentB :=
      fun x hx => h x (List.mem_cons_of_mem l hx)
    have hdl : pyDocLine (b ++ ['\n']) (joinStrings rest).data = true := by
      rw [← hb]
      exact pyDocLine_comment l hl _
    rw [joinStrings_cons, hb, List.append_assoc,
        show (['\n'] : Chars) ++ (joinStrings rest).data =
          '\n' :: (joinStrings rest).data from rfl,
        splitNlKeepA_line b hbn]
    unfold chunksGo
    simp only [hdl, if_true]
    rw [ih hrest]
    by_cases hr : rest = []
    · subst hr
      simp only [if_neg (List.cons_ne_nil l [])]
      simp [joinStrings]
    · simp only [hr, if_neg hr, if_neg (List.cons_ne_nil l rest)]
      simp [List.append_assoc]

theorem chunks_family (pre post : List String)
    (hpre : ∀ l ∈ pre, l = commentA ∨ l = commentB)
    (hpost : ∀ l ∈ post, l = commentA ∨ l = commentB) :
    pyInlineChunks (joinStrings (pre ++ [shebangLine] ++ post)).data =
      (if pre = [] then [] else [Chunk.doc (joinStrings pre).data]) ++
      Chunk.code shebangLine.data ::
      (if post = [] then [] else [Chunk.doc (joinStrings post).data]) := by
  induction pre with
  | nil =>
    simp only [List.nil_append, if_pos rfl]
    unfold pyInlineChunks
    rw [show ([shebangLine] ++ post) = shebangLine :: post from rfl]
    rw [joinStrings_cons,
        show shebangLine.data = ("#!/usr/bin/env x").data ++ ['\n'] from rfl,
        List.append_assoc,
        show (['\n'] : Chars) ++ (joinStrings post).data =
          '\n' :: (joinStrings post).data from rfl,
        splitNlKeepA_line ("#!/usr/bin/env x").data (by decide)]
    have hsh : pyDocLine (("#!/usr/bin/env x").data ++ ['\n'])
        (joinStrings post).data = false := pyDocLine_shebang _
    unfold chunksGo
    simp only [hsh, Bool.false_eq_true, if_false]
    rw [chunks_comments post hpost]
    by_cases hp : post = []
    · subst hp
      simp
    · simp [hp]
  | cons l pre' ih =>
    have hl := hpre l (List.mem_cons_self l pre')
    obtain ⟨b, hb, hbn⟩ := comment_decomp l hl
    have hpre' : ∀ x ∈ pre', x = commentA ∨ x = commentB :=
      fun x hx => hpre x (List.mem_cons_of_mem l hx)
    have hdl : pyDocLine (b ++ ['\n'])
        (joinStrings (pre' ++ [shebangLine] ++ post)).data = true := by
      rw [← hb]
      exact pyDocLine_comment l hl _
    unfold pyInlineChunks at ih ⊢
    rw [show ((l :: pre') ++ [shebangLine] ++ post) =
          l :: (pre' ++ [shebangLine] ++ post) from rfl,
        joinStrings_cons, hb, List.append_assoc,
        show (['\n'] : Chars) ++ (joinStrings (pre' ++ [shebangLine] ++ post)).data =
          '\n' :: (joinStrings (pre' ++ [shebangLine] ++ post)).data from rfl,
        splitNlKeepA_line b hbn]
    unfold chunksGo
    simp only [hdl, if_true]
    rw [ih hpre']
    by_cases hp : pre' = []
    · subst hp
      simp only [if_pos rfl, List.nil_append, if_neg (List.cons_ne_nil l [])]
      simp [joinStrings, hb]
    · simp only [hp, if_neg hp, if_neg (List.cons_ne_nil l pre')]
      simp [joinStrings_cons, List.append_assoc, hb]

theorem splitNlKeep_join (ls : List String)
    (h : ∀ l ∈ ls, ∃ b, l.data = b ++ ['\n'] ∧ '\n' ∉ b) :
    splitNlKeep (joinStrings ls).data = ls.map String.data := by
  induction ls with
  | nil => rfl
  | cons l rest ih =>
    obtain ⟨b, hb, hbn⟩ := h l (List.mem_cons_self l rest)
    unfold splitNlKeep at ih ⊢
    rw [joinStrings_cons, hb, List.append_assoc,
        show (['\n'] : Chars) ++ (joinStrings rest).data =
          '\n' :: (joinStrings rest).data from rfl,
        splitNlKeepA_line b hbn]
    rw [List.map_cons, ih (fun x hx => h x (List.mem_cons_of_mem l hx))]
    rw [List.map_cons, ← hb]

theorem joinStrings_noQuote (ls : List String)
    (h : ∀ l ∈ ls, l = commentA ∨ l = commentB ∨ l = shebangLine) :
    '\"' ∉ (joinStrings ls).data := by
  intro hmem
  unfold joinStrings at hmem
  rw [show (String.mk ((ls.map String.data).flatten)).data =
      (ls.map String.data).flatten from rfl] at hmem
  rw [List.mem_flatten] at hmem
  obtain ⟨l, hl, hx⟩ := hmem
  rw [List.mem_map] at hl
  obtain ⟨str, hstr, rfl⟩ := hl
  rcases h str hstr with rfl | rfl | rfl <;> revert hx <;> decide

theorem stripInline_hashfree (ls : List String)
    (h : ∀ l ∈ ls, l = commentA ∨ l = commentB) :
    '#' ∉ (stripInlineDocs (joinStrings ls)).data := by
  intro hmem
  unfold stripInlineDocs at hmem
  rw [show (String.mk (((splitNlKeep (joinStrings ls).data).map stripInlineLine).flatten)).data
      = ((splitNlKeep (joinStrings ls).data).map stripInlineLine).flatten from rfl] at hmem
  rw [splitNlKeep_join ls (fun l hl => comment_decomp l (h l hl))] at hmem
  rw [List.mem_flatten] at hmem
  obtain ⟨l2, hl2, hx⟩ := hmem
  rw [List.mem_map] at hl2
  obtain ⟨l3, hl3, rfl⟩ := hl2
  rw [List.mem_map] at hl3
  obtain ⟨str, hstr, rfl⟩ := hl3
  rcases h str hstr with rfl | rfl <;> revert hx <;> decide

theorem multiBody_noQuote (s : Section) (h : '\"' ∉ s.code_text.data)
    (hd : s.docs_text = "") : pyParseMultilineBody s = [s] := by
  obtain ⟨d, c, l, sc, m⟩ := s
  change d = "" at hd
  subst hd
  unfold pyParseMultilineBody
  rw [pyDocstringScan_noQuote _ _ h]
  rfl

theorem inlineBody_stripped (s : Section) (hm : s.meta = "stripped")
    (hc : s.code_text = "" ∨ s.code_text = shebangLine) :
    pyParseInlineBody s = [s] := by
  rcases hc with h | h
  · unfold pyParseInlineBody
    rw [h]
    simp [show pyInlineChunks ("" : String).data = [] from rfl, hm]
  · unfold pyParseInlineBody
    rw [h]
    rw [show pyInlineChunks shebangLine.data = [Chunk.code shebangLine.data] from by decide]
    simp [hm]

theorem scopesBody_stripped (s : Section)
    (hc : s.code_text = "" ∨ s.code_text = shebangLine) :
    pySplitByScopesBody s = [s] := by
  rcases hc with h | h
  · unfold pySplitByScopesBody pyKwStep
    rw [h]
    have e1 : ((stripNlBoth (("" : String)).data).takeWhile isPyWs).length = 0 := by decide
    have e2 : pyFindWeird (("" : String)).data 1 = none := by decide
    have e3 : pyFindKw (("" : String)).data 0 = none := by decide
    simp [e1, e2, e3]
  · unfold pySplitByScopesBody pyKwStep
    rw [h]
    have e1 : ((stripNlBoth shebangLine.data).takeWhile isPyWs).length = 0 := by decide
    have e2 : pyFindWeird shebangLine.data 1 = none := by decide
    have e3 : pyFindKw shebangLine.data 0 = none := by decide
    simp [e1, e2, e3]

theorem levels_id (secs : List Section) (h : ∀ s ∈ secs, shebInv s) :
    set_sections_levels secs = secs := by
  unfold set_sections_levels
  suffices hgen : ∀ (o : Option Nat), o = none ∨ o = some 0 → setLevelsGo o secs = secs from
    hgen none (Or.inl rfl)
  induction secs with
  | nil =>
    intro o _
    rfl
  | cons s rest ih =>
    intro o ho
    obtain ⟨hcode, hdocs, hscope, hlevel⟩ := h s (List.mem_cons_self s rest)
    have hrec := ih (fun x hx => h x (List.mem_cons_of_mem s hx)) (some 0) (Or.inr rfl)
    have hsec : ({ s with level := 0 } : Section) = s := by
      obtain ⟨d, c2, l2, sc, m2⟩ := s
      change l2 = 0 at hlevel
      subst hlevel
      rfl
    rcases ho with rfl | rfl
    · unfold setLevelsGo
      show ({ s with level := (if s.code_text ≠ "" then
          (s.code_text.data.takeWhile isBlankCh).length else s.level) } ::
        setLevelsGo (some (if s.code_text ≠ "" then
          (s.code_text.data.takeWhile isBlankCh).length else s.level)) rest) = s :: rest
      have hlvl : (if s.code_text ≠ "" then
          (s.code_text.data.takeWhile isBlankCh).length else s.level) = 0 := by
        rcases hcode with h0 | h0
        · rw [if_neg (by simp [h0])]
          exact hlevel
        · rw [if_pos (by rw [h0]; decide)]
          rw [h0]
          decide
      rw [hlvl, hrec, hsec]
    · unfold setLevelsGo
      show ({ s with level := (if s.code_text ≠ "" then
          (s.code_text.data.takeWhile isBlankCh).length else 0) } ::
        setLevelsGo (some (if s.code_text ≠ "" then
          (s.code_text.data.takeWhile isBlankCh).length else 0)) rest) = s :: rest
      have hlvl : (if s.code_text ≠ "" then
          (s.code_text.data.takeWhile isBlankCh).length else 0) = 0 := by
        rcases hcode with h0 | h0
        · rw [if_neg (by simp [h0])]
        · rw [if_pos (by rw [h0]; decide)]
          rw [h0]
          decide
      rw [hlvl, hrec, hsec]

theorem strip_docs_inv (secs : List Section) (h : ∀ s ∈ secs, shebInv s) :
    (∀ s ∈ strip_docs_indentation secs, shebInv s) ∧
    ((∃ s ∈ secs, s.code_text = shebangLine) →
      ∃ s ∈ strip_docs_indentation secs, s.code_text = shebangLine) := by
  constructor
  · intro s hs
    unfold strip_docs_indentation at hs
    rw [List.mem_map] at hs
    obtain ⟨t, ht, rfl⟩ := hs
    obtain ⟨hcode, hdocs, hscope, hlevel⟩ := h t ht
    refine ⟨hcode, ?_, hscope, hlevel⟩
    intro hmem
    apply hdocs
    change '#' ∈ (((splitNlKeep t.docs_text.data).map
      (stripIndentLine (t.docs_text.data.takeWhile isBlankCh))).flatten) at hmem
    rw [List.mem_flatten] at hmem
    obtain ⟨l2, hl2, hx⟩ := hmem
    rw [List.mem_map] at hl2
    obtain ⟨line, hline, rfl⟩ := hl2
    have hx2 : '#' ∈ line := mem_of_mem_stripIndentLine _ line hx
    rw [show t.docs_text.data = (splitNlKeep t.docs_text.data).flatten from
      (splitNlKeep_flatten t.docs_text.data).symm]
    rw [List.mem_flatten]
    exact ⟨line, hline, hx2⟩
  · intro hex
    obtain ⟨s, hs, hcode⟩ := hex
    refine ⟨stripDocsSec s, ?_, hcode⟩
    unfold strip_docs_indentation
    exact List.mem_map_of_mem stripDocsSec hs

theorem mergeGo_inv (rule : Section → Section → Option Section)
    (Hrule : ∀ p c, shebInv p → shebInv c →
      rule p c = none ∨
      ∃ m, rule p c = some m ∧ shebInv m ∧
        (p.code_text = shebangLine → m.code_text = shebangLine) ∧
        (c.code_text = shebangLine → m.code_text = shebangLine)) :
    ∀ (rest : List Section) (prev : Section), shebInv prev → (∀ s ∈ rest, shebInv s) →
      (∀ s ∈ mergePass.mergeGo rule prev rest, shebInv s) ∧
      ((prev.code_text = shebangLine ∨ ∃ s ∈ rest, s.code_text = shebangLine) →
        ∃ s ∈ mergePass.mergeGo rule prev rest, s.code_text = shebangLine) := by
  intro rest
  induction rest with
  | nil =>
    intro prev hp _
    constructor
    · intro s hs
      simp only [mergePass.mergeGo] at hs
      rw [List.mem_singleton] at hs
      subst hs
      exact hp
    · intro hex
      refine ⟨prev, by simp [mergePass.mergeGo], ?_⟩
      rcases hex with h1 | ⟨s, hs, _⟩
      · exact h1
      · simp at hs
  | cons cur rest2 ih =>
    intro prev hp hrest
    have hc := hrest cur (List.mem_cons_self cur rest2)
    have hrest2 : ∀ s ∈ rest2, shebInv s :=
      fun s hs => hrest s (List.mem_cons_of_mem cur hs)
    rcases Hrule prev cur hp hc with hnone | ⟨m, hsome, hm, hmp, hmc⟩
    · simp only [mergePass.mergeGo, hnone]
      obtain ⟨ihInv, ihEx⟩ := ih cur hc hrest2
      constructor
      · intro s hs
        rcases List.mem_cons.mp hs with rfl | hs2
        · exact hp
        · exact ihInv s hs2
      · intro hex
        rcases hex with h1 | ⟨s, hs, hcode⟩
        · exact ⟨prev, List.mem_cons_self _ _, h1⟩
        · rcases List.mem_cons.mp hs with rfl | hs2
          · obtain ⟨w, hw, hwc⟩ := ihEx (Or.inl hcode)
            exact ⟨w, List.mem_cons_of_mem prev hw, hwc⟩
          · obtain ⟨w, hw, hwc⟩ := ihEx (Or.inr ⟨s, hs2, hcode⟩)
            exact ⟨w, List.mem_cons_of_mem prev hw, hwc⟩
    · simp only [mergePass.mergeGo, hsome]
      obtain ⟨ihInv, ihEx⟩ := ih m hm hrest2
      constructor
      · exact ihInv
      · intro hex
        apply ihEx
        rcases hex with h1 | ⟨s, hs, hcode⟩
        · exact Or.inl (hmp h1)
        · rcases List.mem_cons.mp hs with rfl | hs2
          · exact Or.inl (hmc hcode)
          · exact Or.inr ⟨s, hs2, hcode⟩

theorem mergePass_inv (rule : Section → Section → Option Section)
    (Hrule : ∀ p c, shebInv p → shebInv c →
      rule p c = none ∨
      ∃ m, rule p c = some m ∧ shebInv m ∧
        (p.code_text = shebangLine → m.code_text = shebangLine) ∧
        (c.code_text = shebangLine → m.code_text = shebangLine))
    (secs : List Section) (h : ∀ s ∈ secs, shebInv s) :
    (∀ s ∈ mergePass rule secs, shebInv s) ∧
    ((∃ s ∈ secs, s.code_text = shebangLine) →
      ∃ s ∈ mergePass rule secs, s.code_text = shebangLine) := by
  cases secs with
  | nil =>
    constructor
    · intro s hs
      simp [mergePass] at hs
    · intro hex
      obtain ⟨s, hs, _⟩ := hex
      simp at hs
  | cons s rest =>
    obtain ⟨hInv, hEx⟩ := mergeGo_inv rule Hrule rest s
      (h s (List.mem_cons_self s rest))
      (fun x hx => h x (List.mem_cons_of_mem s hx))
    constructor
    · exact hInv
    · intro hex
      apply hEx
      obtain ⟨w, hw, hwc⟩ := hex
      rcases List.mem_cons.mp hw with rfl | hw2
      · exact Or.inl hwc
      · exact Or.inr ⟨w, hw2, hwc⟩

theorem Hrule_mergeUp : ∀ p c, shebInv p → shebInv c →
    mergeUpRule pythonKwMatch p c = none ∨
    ∃ m, mergeUpRule pythonKwMatch p c = some m ∧ shebInv m ∧
      (p.code_text = shebangLine → m.code_text = shebangLine) ∧
      (c.code_text = shebangLine → m.code_text = shebangLine) := by
  intro p c hp hc
  unfold mergeUpRule
  by_cases hcond : (!c.has_code && !p.has_docs && p.has_code &&
      pythonKwMatch (prevCodeLine p.code_text)) = true
  · right
    refine ⟨_, by rw [if_pos hcond], ?_, ?_, ?_⟩
    · exact ⟨hp.1, hc.2.1, hp.2.2.1, hp.2.2.2⟩
    · intro h1
      exact h1
    · intro h1
      exfalso
      have hnc : c.has_code = false := by
        simp only [Bool.and_eq_true] at hcond
        have h2 := hcond.1.1.1
        revert h2
        cases c.has_code <;> simp
      rw [Section.has_code, h1] at hnc
      exact absurd hnc (by decide)
  · left
    rw [if_neg hcond]

theorem Hrule_mergeDown : ∀ p c, shebInv p → shebInv c →
    mergeDownRule p c = none ∨
    ∃ m, mergeDownRule p c = some m ∧ shebInv m ∧
      (p.code_text = shebangLine → m.code_text = shebangLine) ∧
      (c.code_text = shebangLine → m.code_text = shebangLine) := by
  intro p c hp hc
  unfold mergeDownRule
  by_cases hcond : (!p.has_code && p.has_docs && !c.has_docs && c.has_code) = true
  · right
    refine ⟨_, by rw [if_pos hcond], ?_, ?_, ?_⟩
    · refine ⟨Or.imp id id hc.1, hp.2.1, ?_, hp.2.2.2⟩
      rw [hc.2.2.1, hp.2.2.1]
      rfl
    · intro h1
      exfalso
      have hnp : p.has_code = false := by
        simp only [Bool.and_eq_true] at hcond
        have h2 := hcond.1.1.1
        revert h2
        cases p.has_code <;> simp
      rw [Section.has_code, h1] at hnp
      exact absurd hnp (by decide)
    · intro h1
      exact h1
  · left
    rw [if_neg hcond]

theorem Hrule_pyAbsorb : ∀ p c, shebInv p → shebInv c →
    pythonAbsorbRule p c = none ∨
    ∃ m, pythonAbsorbRule p c = some m ∧ shebInv m ∧
      (p.code_text = shebangLine → m.code_text = shebangLine) ∧
      (c.code_text = shebangLine → m.code_text = shebangLine) := by
  intro p c hp _
  left
  unfold pythonAbsorbRule
  rw [hp.2.2.1]
  rfl

theorem Hrule_absorb : ∀ p c, shebInv p → shebInv c →
    absorbRule p c = none ∨
    ∃ m, absorbRule p c = some m ∧ shebInv m ∧
      (p.code_text = shebangLine → m.code_text = shebangLine) ∧
      (c.code_text = shebangLine → m.code_text = shebangLine) := by
  intro p c hp hc
  left
  unfold absorbRule
  rw [hp.2.2.2, hc.2.2.2]
  simp

theorem filter_inv (secs : List Section) (h : ∀ s ∈ secs, shebInv s)
    (hS : ∃ s ∈ secs, s.code_text = shebangLine) :
    (∃ s ∈ secs.filter (fun s => s.has_code || s.has_docs),
        s.code_text = shebangLine) ∧
    (∀ s ∈ secs.filter (fun s => s.has_code || s.has_docs),
        '#' ∉ s.docs_text.data) := by
  constructor
  · obtain ⟨s, hs, hcode⟩ := hS
    refine ⟨s, ?_, hcode⟩
    rw [List.mem_filter]
    refine ⟨hs, ?_⟩
    have hhc : s.has_code = true := by
      rw [Section.has_code, hcode]
      decide
    rw [hhc]
    rfl
  · intro s hs
    exact (h s (List.mem_of_mem_filter hs)).2.1

theorem inlineBody_shebang_doc (J D : String)
    (hch : pyInlineChunks J.data = [Chunk.code shebangLine.data, Chunk.doc D.data]) :
    pyParseInlineBody { code_text := J } =
      [{ code_text := shebangLine, meta := "stripped" },
       { docs_text := stripInlineDocs D, meta := "stripped" }] := by
  unfold pyParseInlineBody
  rw [show ({ code_text := J } : Section).code_text.data = J.data from rfl, hch]
  rfl

theorem inlineBody_doc_shebang (J D : String)
    (hch : pyInlineChunks J.data = [Chunk.doc D.data, Chunk.code shebangLine.data]) :
    pyParseInlineBody { code_text := J } =
      [{ docs_text := stripInlineDocs D, meta := "stripped" },
       { code_text := shebangLine, meta := "stripped" }] := by
  unfold pyParseInlineBody
  rw [show ({ code_text := J } : Section).code_text.data = J.data from rfl, hch]
  rfl

theorem inlineBody_doc_shebang_doc (J D1 D2 : String)
    (hch : pyInlineChunks J.data =
      [Chunk.doc D1.data, Chunk.code shebangLine.data, Chunk.doc D2.data]) :
    pyParseInlineBody { code_text := J } =
      [{ docs_text := stripInlineDocs D1, meta := "stripped" },
       { code_text := shebangLine, meta := "stripped" },
       { docs_text := stripInlineDocs D2, meta := "stripped" }] := by
  unfold pyParseInlineBody
  rw [show ({ code_text := J } : Section).code_text.data = J.data from rfl, hch]
  rfl

theorem pythonParse_eq (code : String) :
    pythonParse code = (mergePass absorbRule (mergePass pythonAbsorbRule
      (set_sections_levels (mergePass mergeDownRule (set_sections_levels
      (mergePass (mergeUpRule pythonKwMatch) (splitPass pySplitByScopesBody
      (set_sections_levels (strip_docs_indentation (set_sections_levels
      (splitPass pyParseInlineBody (splitPass pyParseMultilineBody
      [({ code_text := code } : Section)])))))))))))).filter
        (fun s => s.has_code || s.has_docs) := by
  unfold pythonParse parseWith
  rw [show pythonStrategy =
      [("parse_multiline", splitPass pyParseMultilineBody),
       ("parse_inline", splitPass pyParseInlineBody),
       ("set_sections_levels", set_sections_levels),
       ("strip_docs_indentation", strip_docs_indentation),
       ("set_sections_levels", set_sections_levels),
       ("split_by_scopes", splitPass pySplitByScopesBody),
       ("merge_up", mergePass (mergeUpRule pythonKwMatch)),
       ("set_sections_levels", set_sections_levels),
       ("merge_down", mergePass mergeDownRule),
       ("set_sections_levels", set_sections_levels),
       ("python_absorb", mergePass pythonAbsorbRule),
       ("absorb", mergePass absorbRule)] from rfl]
  simp only [List.foldl_cons, List.foldl_nil]

theorem inline_stage (pre post : List String)
    (hpre : ∀ l ∈ pre, l = commentA ∨ l = commentB)
    (hpost : ∀ l ∈ post, l = commentA ∨ l = commentB) :
    (∀ s ∈ splitPass pyParseInlineBody
        [({ code_text := joinStrings (pre ++ [shebangLine] ++ post) } : Section)],
      shebInv s) ∧
    (∃ s ∈ splitPass pyParseInlineBody
        [({ code_text := joinStrings (pre ++ [shebangLine] ++ post) } : Section)],
      s.code_text = shebangLine) := by
  have hch := chunks_family pre post hpre hpost
  by_cases hpre0 : pre = []
  · by_cases hpost0 : post = []
    · subst hpre0
      subst hpost0
      have hT : splitPass pyParseInlineBody
          [({ code_text := joinStrings ([] ++ [shebangLine] ++ []) } : Section)] =
          [{ code_text := shebangLine, meta := "stripped" }] := by decide
      rw [hT]
      constructor
      · intro s hs
        rw [List.mem_singleton] at hs
        subst hs
        exact ⟨Or.inr rfl, by decide, rfl, rfl⟩
      · exact ⟨_, List.mem_singleton.mpr rfl, rfl⟩
    · subst hpre0
      rw [if_pos rfl, if_neg hpost0, List.nil_append] at hch
      have hbody := inlineBody_shebang_doc
        (joinStrings ([] ++ [shebangLine] ++ post)) (joinStrings post) hch
      have hT : splitPass pyParseInlineBody
          [({ code_text := joinStrings ([] ++ [shebangLine] ++ post) } : Section)] =
          [{ code_text := shebangLine, meta := "stripped" },
           { docs_text := stripInlineDocs (joinStrings post), meta := "stripped" }] := by
        apply splitPass_one _ _ _ _ hbody
        · intro x hx
          rw [List.mem_singleton] at hx
          subst hx
          exact inlineBody_stripped _ rfl (Or.inl rfl)
        · rw [fuelFor_single]
          simp only [List.length_cons, List.length_nil]
          omega
      rw [hT]
      constructor
      · intro s hs
        rcases List.mem_cons.mp hs with rfl | hs2
        · exact ⟨Or.inr rfl, by decide, rfl, rfl⟩
        · rw [List.mem_singleton] at hs2
          subst hs2
          exact ⟨Or.inl rfl, stripInline_hashfree post hpost, rfl, rfl⟩
      · exact ⟨_, List.mem_cons_self _ _, rfl⟩
  · by_cases hpost0 : post = []
    · subst hpost0
      rw [if_neg hpre0, if_pos rfl] at hch
      rw [show ([Chunk.doc (joinStrings pre).data] ++
          Chunk.code shebangLine.data :: ([] : List Chunk)) =
          [Chunk.doc (joinStrings pre).data, Chunk.code shebangLine.data] from rfl] at hch
      have hbody := inlineBody_doc_shebang
        (joinStrings (pre ++ [shebangLine] ++ [])) (joinStrings pre) hch
      have hT : splitPass pyParseInlineBody
          [({ code_text := joinStrings (pre ++ [shebangLine] ++ []) } : Section)] =
          [{ docs_text := stripInlineDocs (joinStrings pre), meta := "stripped" },
           { code_text := shebangLine, meta := "stripped" }] := by
        apply splitPass_one _ _ _ _ hbody
        · intro x hx
          rw [List.mem_singleton] at hx
          subst hx
          exact inlineBody_stripped _ rfl (Or.inr rfl)
        · rw [fuelFor_single]
          simp only [List.length_cons, List.length_nil]
          omega
      rw [hT]
      constructor
      · intro s hs
        rcases List.mem_cons.mp hs with rfl | hs2
        · exact ⟨Or.inl rfl, stripInline_hashfree pre hpre, rfl, rfl⟩
        · rw [List.mem_singleton] at hs2
          subst hs2
          exact ⟨Or.inr rfl, by decide, rfl, rfl⟩
      · exact ⟨_, List.mem_cons_of_mem _ (List.mem_singleton.mpr rfl), rfl⟩
    · rw [if_neg hpre0, if_neg hpost0] at hch
      rw [show ([Chunk.doc (joinStrings pre).data] ++
          Chunk.code shebangLine.data :: [Chunk.doc (joinStrings post).data]) =
          [Chunk.doc (joinStrings pre).data, Chunk.code shebangLine.data,
           Chunk.doc (joinStrings post).data] from rfl] at hch
      have hbody := inlineBody_doc_shebang_doc
        (joinStrings (pre ++ [shebangLine] ++ post)) (joinStrings pre)
        (joinStrings post) hch
      have hT : splitPass pyParseInlineBody
          [({ code_text := joinStrings (pre ++ [shebangLine] ++ post) } : Section)] =
          [{ docs_text := stripInlineDocs (joinStrings pre), meta := "stripped" },
           { code_text := shebangLine, meta := "stripped" },
           { docs_text := stripInlineDocs (joinStrings post), meta := "stripped" }] := by
        apply splitPass_one _ _ _ _ hbody
        · intro x hx
          rcases List.mem_cons.mp hx with rfl | hx2
          · exact inlineBody_stripped _ rfl (Or.inr rfl)
          · rw [List.mem_singleton] at hx2
            subst hx2
            exact inlineBody_stripped _ rfl (Or.inl rfl)
        · rw [fuelFor_single]
          simp only [List.length_cons, List.length_nil]
          omega
      rw [hT]
      constructor
      · intro s hs
        rcases List.mem_cons.mp hs with rfl | hs2
        · exact ⟨Or.inl rfl, stripInline_hashfree pre hpre, rfl, rfl⟩
        · rcases List.mem_cons.mp hs2 with rfl | hs3
          · exact ⟨Or.inr rfl, by decide, rfl, rfl⟩
          · rw [List.mem_singleton] at hs3
            subst hs3
            exact ⟨Or.inl rfl, stripInline_hashfree post hpost, rfl, rfl⟩
      · exact ⟨_, List.mem_cons_of_mem _ (List.mem_cons_self _ _), rfl⟩

/-- C6: for the Python definition, an input consisting of ordinary
inline-comment lines with the shebang line `"#!/usr/bin/env x\n"` at
any position among them, the shebang is never classified as
documentation by the inline-comment pass: in the sections returned by
`parse` it always appears as code text (a section whose code is
exactly the shebang line exists), and the shebang never occurs inside
any section's documentation text. -/
theorem c6_shebang_stays_code :
    ∀ pre post : List String,
      (∀ l ∈ pre, l = commentA ∨ l = commentB) →
      (∀ l ∈ post, l = commentA ∨ l = commentB) →
      (∃ s ∈ pythonParse (joinStrings (pre ++ [shebangLine] ++ post)),
          s.code_text = shebangLine) ∧
      (∀ s ∈ pythonParse (joinStrings (pre ++ [shebangLine] ++ post)),
          ¬ shebangLine.data <:+: s.docs_text.data) := by
  intro pre post hpre hpost
  have hall : ∀ l ∈ pre ++ [shebangLine] ++ post,
      l = commentA ∨ l = commentB ∨ l = shebangLine := by
    intro l hl
    rw [List.append_assoc, List.mem_append] at hl
    rcases hl with h1 | h1
    · rcases hpre l h1 with h2 | h2
      · exact Or.inl h2
      · exact Or.inr (Or.inl h2)
    · rw [show ([shebangLine] ++ post) = shebangLine :: post from rfl] at h1
      rcases List.mem_cons.mp h1 with rfl | h2
      · exact Or.inr (Or.inr rfl)
      · rcases hpost l h2 with h3 | h3
        · exact Or.inl h3
        · exact Or.inr (Or.inl h3)
  have hnq := joinStrings_noQuote _ hall
  have stage1 : splitPass pyParseMultilineBody
      [({ code_text := joinStrings (pre ++ [shebangLine] ++ post) } : Section)] =
      [{ code_text := joinStrings (pre ++ [shebangLine] ++ post) }] :=
    splitPass_id _ _ (by
      intro x hx
      rw [List.mem_singleton] at hx
      subst hx
      exact multiBody_noQuote _ hnq rfl)
  obtain ⟨hIP2, hS2⟩ := inline_stage pre post hpre hpost
  rw [pythonParse_eq, stage1]
  rw [levels_id _ hIP2]
  obtain ⟨hIP4, hEx4⟩ := strip_docs_inv _ hIP2
  rw [levels_id _ hIP4]
  rw [splitPass_id pySplitByScopesBody _
    (fun x hx => scopesBody_stripped x (hIP4 x hx).1)]
  obtain ⟨hIP7, hEx7⟩ := mergePass_inv _ Hrule_mergeUp _ hIP4
  rw [levels_id _ hIP7]
  obtain ⟨hIP9, hEx9⟩ := mergePass_inv _ Hrule_mergeDown _ hIP7
  rw [levels_id _ hIP9]
  obtain ⟨hIP11, hEx11⟩ := mergePass_inv _ Hrule_pyAbsorb _ hIP9
  obtain ⟨hIP12, hEx12⟩ := mergePass_inv _ Hrule_absorb _ hIP11
  have hSfinal := hEx12 (hEx11 (hEx9 (hEx7 (hEx4 hS2))))
  obtain ⟨hfin1, hfin2⟩ := filter_inv _ hIP12 hSfinal
  refine ⟨hfin1, ?_⟩
  intro s hs hinf
  exact hfin2 s hs (List.IsInfix.mem (by decide) hinf)

/-- C6 (witness): the theorem applied to one comment line before and
one after the shebang line. -/
theorem c6_shebang_stays_code_witness :
    (∃ s ∈ pythonParse (joinStrings (["# a\n"] ++ [shebangLine] ++ ["# b\n"])),
        s.code_text = shebangLine) ∧
    (∀ s ∈ pythonParse (joinStrings (["# a\n"] ++ [shebangLine] ++ ["# b\n"])),
        ¬ shebangLine.data <:+: s.docs_text.data) :=
  c6_shebang_stays_code ["# a\n"] ["# b\n"] (by decide) (by decide)

end Pyccoon
